import Mathlib

/-!
Verification of the airdrop-assistant repository (diamond-hands eligibility
analyzer).  The definitions below are a shallow embedding of the JavaScript
sources: balances (JS numbers) are modelled as rationals, timestamps as
integer milliseconds, fallible operations as `Except`, and the mutable
service/orchestrator state as explicit state passing.
-/

/-- Configuration constant from src/config.js: minimum balance for eligibility. -/
def MIN_TOKENS : ℚ := 50000000

/-- Configuration constant from src/config.js: maximum balance for eligibility. -/
def MAX_TOKENS : ℚ := 40000000000

/-- Configuration constant from src/config.js: required holding period in months. -/
def MONTHS_REQUIRED : Int := 3

/-- Configuration constant from src/config.js: the tracked token mint. -/
def KOKO_TOKEN : String := "FsA54yL49WKs7rWoGv9sUcbSGWCWV756jTD349e6H2yW"

/-- One entry of `preTokenBalances` / `postTokenBalances` of a parsed transaction. -/
structure TokenBalance where
  mint : String
  owner : String
  amount : ℚ
deriving DecidableEq, Repr

/-- The `meta` field of a parsed transaction. -/
structure TxMeta where
  preTokenBalances : Option (List TokenBalance)
  postTokenBalances : Option (List TokenBalance)
deriving DecidableEq, Repr

/-- A parsed transaction as consumed by the analyzers (`blockTime` in seconds). -/
structure Tx where
  blockTime : Int
  meta : Option TxMeta
deriving DecidableEq, Repr

/-- Result of classifying one transaction (`analyzeTransaction` in the sources);
`date` is the timestamp in milliseconds (`new Date(tx.blockTime * 1000)`). -/
structure TxResult where
  acquired : Bool
  sold : Bool
  date : Int
  amount : ℚ
deriving DecidableEq, Repr

/-- The record returned by wallet analysis (`WalletAnalysis` in the spec);
`firstAcquired` is a millisecond timestamp when present. -/
structure WalletAnalysis where
  isEligible : Bool
  reason : String
  firstAcquired : Option Int
  maxHeld : ℚ
  hasSold : Bool
  holdingDays : Int
deriving DecidableEq, Repr

/-- Character for a decimal digit `d < 10`. -/
def digitChar (d : Nat) : Char := Char.ofNat (48 + d)

/-- Little-endian decimal digits of `n`, with explicit fuel (structural recursion). -/
def natDigsAux : Nat → Nat → List Nat
  | 0, _ => []
  | f + 1, n => if n = 0 then [] else n % 10 :: natDigsAux f (n / 10)

/-- Little-endian decimal digits of `n`. -/
def natDigits (n : Nat) : List Nat := natDigsAux n n

/-- Big-endian decimal character rendering of `n` (JS `Number.prototype.toString`). -/
def natChars (n : Nat) : List Char :=
  if n = 0 then ['0'] else ((natDigits n).map digitChar).reverse

/-- Split a list into chunks of three (used for thousands grouping). -/
def chunk3 : List Char → List (List Char)
  | [] => []
  | [a] => [[a]]
  | [a, b] => [[a, b]]
  | a :: b :: c :: rest => [a, b, c] :: chunk3 rest

/-- Decimal rendering of `n` with commas every three digits from the right,
modelling JS `toLocaleString` on a nonnegative integer. -/
def groupNat (n : Nat) : List Char :=
  let le := (natChars n).reverse
  List.intercalate [','] (((chunk3 le).map List.reverse).reverse)

/-- Model of JS `Number.prototype.toLocaleString()`: thousands grouping and at
most three fraction digits (rounded half away from zero, trailing zeros
dropped).  The value scaled by 1000 and rounded is computed on the numerator
and denominator directly: `(2000 * num + den) / (2 * den) = floor(|q| * 1000 + 1/2)`. -/
def toLocaleString (q : ℚ) : String :=
  let neg := q < 0
  let scaled : Nat := (2000 * q.num.natAbs + q.den) / (2 * q.den)
  let ip := scaled / 1000
  let fp := scaled % 1000
  let frac : List Char :=
    if fp = 0 then []
    else
      let raw := [digitChar (fp / 100), digitChar (fp / 10 % 10), digitChar (fp % 10)]
      '.' :: (raw.reverse.dropWhile (fun c => c = '0')).reverse
  String.mk ((if neg then ['-'] else []) ++ groupNat ip ++ frac)

/-- Reason string for a balance below the floor (solana-service.js line 295). -/
def insufficientBalanceMsg (b : ℚ) : String :=
  "Insufficient balance (" ++ toLocaleString b ++ " < " ++ toLocaleString MIN_TOKENS ++ ")"

/-- Reason string for a balance above the ceiling (solana-service.js line 298). -/
def exceedsMaxMsg (b : ℚ) : String :=
  "Balance exceeds maximum limit (" ++ toLocaleString b ++ " > " ++ toLocaleString MAX_TOKENS ++ ")"

/-- Reason string for a wallet that has sold (solana-service.js line 301). -/
def hasSoldMsg : String := "Has sold KOKO in the past"

/-- Reason string when no acquisition was found (solana-service.js line 304). -/
def unableToDetermineMsg : String := "Unable to determine first acquisition"

/-- Reason string when no acquisition was found (diamond-hands-analyzer.js line 223). -/
def noAcquisitionMsg : String := "No acquisition history found"

/-- Reason string for a holding period below the requirement (solana-service.js line 307). -/
def insufficientHoldingMsg (hd : Int) : String :=
  "Insufficient holding time (" ++ toString hd ++ " days < " ++ toString (MONTHS_REQUIRED * 30) ++ " days)"

/-- Reason string when every criterion is met (solana-service.js line 309). -/
def meetsAllMsg : String := "Meets all eligibility criteria"

/-- Embedding of `SolanaService.getEligibilityReason` (solana-service.js lines 293-310). -/
def getEligibilityReason (currentBalance : ℚ) (hasSold : Bool) (firstAcquired : Option Int)
    (holdingDays : Int) : String :=
  if currentBalance < MIN_TOKENS then insufficientBalanceMsg currentBalance
  else if MAX_TOKENS < currentBalance then exceedsMaxMsg currentBalance
  else if hasSold then hasSoldMsg
  else if firstAcquired = none then unableToDetermineMsg
  else if holdingDays < MONTHS_REQUIRED * 30 then insufficientHoldingMsg holdingDays
  else meetsAllMsg

/-- Embedding of `DiamondHandsAnalyzer.getStatusReason` (diamond-hands-analyzer.js
lines 212-229); identical priority chain, but the no-acquisition message differs. -/
def getStatusReason (amount : ℚ) (hasSold : Bool) (firstAcquired : Option Int)
    (holdingDays : Int) : String :=
  if amount < MIN_TOKENS then insufficientBalanceMsg amount
  else if MAX_TOKENS < amount then exceedsMaxMsg amount
  else if hasSold then hasSoldMsg
  else if firstAcquired = none then noAcquisitionMsg
  else if holdingDays < MONTHS_REQUIRED * 30 then insufficientHoldingMsg holdingDays
  else meetsAllMsg

/-- Embedding of `SolanaService.analyzeTransaction` (solana-service.js lines 259-291):
classify one transaction by this wallet's pre/post balance of the tracked mint.
`DiamondHandsAnalyzer.analyzeTransaction` (lines 182-210) is the same function. -/
def analyzeTransaction (mint wallet : String) (tx : Tx) : TxResult :=
  let base : TxResult := { acquired := false, sold := false, date := tx.blockTime * 1000, amount := 0 }
  match tx.meta with
  | none => base
  | some m =>
    match m.preTokenBalances, m.postTokenBalances with
    | some pres, some posts =>
      match pres.find? (fun b => b.mint == mint && b.owner == wallet),
            posts.find? (fun b => b.mint == mint && b.owner == wallet) with
      | some preB, some postB =>
        { acquired := decide (preB.amount < postB.amount),
          sold := decide (postB.amount < preB.amount),
          date := tx.blockTime * 1000,
          amount := postB.amount }
      | _, _ => base
    | _, _ => base

/-- Running state of the transaction scan in `processWalletTransactions`. -/
structure ScanState where
  firstAcquired : Option Int
  maxHeld : ℚ
  hasSold : Bool
deriving DecidableEq, Repr

/-- The running-minimum update of `firstAcquired`
(solana-service.js lines 228-230). -/
def updateFirstAcquired (fa : Option Int) (r : TxResult) : Option Int :=
  if r.acquired && (match fa with | none => true | some d => decide (r.date < d)) then
    some r.date
  else fa

/-- The scan loop of `SolanaService.processWalletTransactions` (lines 223-236):
update `maxHeld`, then `firstAcquired`, then stop at the first sold transaction. -/
def scanTxs (mint wallet : String) : List Tx → ScanState → ScanState
  | [], st => st
  | tx :: rest, st =>
    let r := analyzeTransaction mint wallet tx
    let mh := max st.maxHeld r.amount
    let fa := updateFirstAcquired st.firstAcquired r
    if r.sold then { firstAcquired := fa, maxHeld := mh, hasSold := true }
    else scanTxs mint wallet rest { firstAcquired := fa, maxHeld := mh, hasSold := false }

/-- The analysis returned for an empty transaction history
(solana-service.js lines 208-217). -/
def noHistoryAnalysis (currentBalance : ℚ) : WalletAnalysis :=
  { isEligible := false, reason := "No transaction history found", firstAcquired := none,
    maxHeld := currentBalance, hasSold := false, holdingDays := 0 }

/-- The fallback analysis built in `analyzeWallet`'s catch block
(solana-service.js lines 196-203). -/
def errorAnalysis (currentBalance : ℚ) : WalletAnalysis :=
  { isEligible := false, reason := "Error during analysis", firstAcquired := none,
    maxHeld := currentBalance, hasSold := false, holdingDays := 0 }

/-- Holding days from a first-acquisition timestamp:
`Math.floor((now - firstAcquired.getTime()) / 86400000)`, else 0. -/
def holdingDaysOf (now : Int) (fa : Option Int) : Int :=
  match fa with
  | some d => Int.fdiv (now - d) 86400000
  | none => 0

/-- Embedding of `SolanaService.processWalletTransactions`
(solana-service.js lines 207-257), with `now = Date.now()` passed explicitly. -/
def processWalletTransactions (now : Int) (wallet : String) (currentBalance : ℚ)
    (transactions : List Tx) : WalletAnalysis :=
  if transactions.isEmpty then noHistoryAnalysis currentBalance
  else
    let st := scanTxs KOKO_TOKEN wallet transactions
      { firstAcquired := none, maxHeld := currentBalance, hasSold := false }
    let holdingDays := holdingDaysOf now st.firstAcquired
    { isEligible := decide (MIN_TOKENS ≤ currentBalance) && decide (currentBalance ≤ MAX_TOKENS) &&
        st.firstAcquired.isSome && !st.hasSold && decide (MONTHS_REQUIRED * 30 ≤ holdingDays),
      reason := getEligibilityReason currentBalance st.hasSold st.firstAcquired holdingDays,
      firstAcquired := st.firstAcquired,
      maxHeld := st.maxHeld,
      hasSold := st.hasSold,
      holdingDays := holdingDays }

/-- The scan loop of `DiamondHandsAnalyzer.analyzeHolder` (lines 145-160): here
the sold short-circuit happens before the `maxHeld` update, and `maxHeld` is
raised only on non-sold transactions. -/
def scanTxsAnalyzer (mint wallet : String) : List Tx → ScanState → ScanState
  | [], st => st
  | tx :: rest, st =>
    let r := analyzeTransaction mint wallet tx
    let fa := updateFirstAcquired st.firstAcquired r
    if r.sold then { firstAcquired := fa, maxHeld := st.maxHeld, hasSold := true }
    else scanTxsAnalyzer mint wallet rest
      { firstAcquired := fa, maxHeld := max st.maxHeld r.amount, hasSold := false }

/-- Embedding of `DiamondHandsAnalyzer.analyzeHolder` (diamond-hands-analyzer.js
lines 137-180), with the already-fetched transaction history passed in.  Note:
its eligibility conjunction (lines 166-170) has no `MAX_TOKENS` conjunct. -/
def analyzeHolder (now : Int) (owner : String) (amount : ℚ)
    (transactions : List Tx) : WalletAnalysis :=
  let st := scanTxsAnalyzer KOKO_TOKEN owner transactions
    { firstAcquired := none, maxHeld := amount, hasSold := false }
  let holdingDays := holdingDaysOf now st.firstAcquired
  { isEligible := decide (MIN_TOKENS ≤ amount) &&
      st.firstAcquired.isSome && !st.hasSold && decide (MONTHS_REQUIRED * 30 ≤ holdingDays),
    reason := getStatusReason amount st.hasSold st.firstAcquired holdingDays,
    firstAcquired := st.firstAcquired,
    maxHeld := st.maxHeld,
    hasSold := st.hasSold,
    holdingDays := holdingDays }

/-- Options of the standalone retry helper (`CONFIG.RETRY_OPTIONS` in config.js). -/
structure RetryOptions where
  retries : Nat
  minTimeout : Int
  maxTimeout : Int
deriving DecidableEq, Repr

/-- The backoff delay slept after failed attempt `attempt` in `withRetry`:
`Math.min(options.minTimeout * Math.pow(2, attempt - 1), options.maxTimeout)`. -/
def backoffDelay (o : RetryOptions) (attempt : Nat) : Int :=
  min (o.minTimeout * 2 ^ (attempt - 1)) o.maxTimeout

/-- Observable trace of a retry loop: how many times the operation was invoked,
the list of sleep durations (in order), and the final outcome. -/
structure RetryTrace (ε α : Type) where
  calls : Nat
  sleeps : List Int
  outcome : Except ε α
deriving Repr

/-- Body of the `withRetry` loop (unnamed source file, `withRetry`): attempts run
from `attempt` while `attempt ≤ o.retries`; `fuel = o.retries - attempt + 1` is
the number of iterations left, and `lastErr` is the error saved so far (`none`
models the still-undefined `lastError` before any failure). -/
def withRetryGo (res : Nat → Except ε α) (o : RetryOptions) :
    (lastErr : Option ε) → (attempt : Nat) → (fuel : Nat) → RetryTrace (Option ε) α
  | lastErr, _, 0 => { calls := 0, sleeps := [], outcome := .error lastErr }
  | _, attempt, fuel + 1 =>
    match res attempt with
    | .ok a => { calls := 1, sleeps := [], outcome := .ok a }
    | .error e =>
      if attempt < o.retries then
        let t := withRetryGo res o (some e) (attempt + 1) fuel
        { calls := t.calls + 1, sleeps := backoffDelay o attempt :: t.sleeps, outcome := t.outcome }
      else
        { calls := 1, sleeps := [], outcome := .error (some e) }

/-- Embedding of `withRetry(fn, options)`: `res k` is the outcome of invoking the
wrapped operation for the `k`-th time (attempts are numbered from 1). -/
def withRetry (res : Nat → Except ε α) (o : RetryOptions) : RetryTrace (Option ε) α :=
  withRetryGo res o none 1 o.retries

/-- Body of `fetchTransactionsWithRetry` / `fetchHoldersWithRetry`
(solana-service.js lines 38-67 and 92-106): on failure these sleep
`this.retryDelay * attempt` and retry while `attempt < this.retryLimit`;
`fuel = retryLimit - attempt` counts the retries left. -/
def fetchRetryGo (res : Nat → Except ε α) (retryDelay : Int) :
    (attempt : Nat) → (fuel : Nat) → RetryTrace ε α
  | attempt, fuel =>
    match res attempt with
    | .ok a => { calls := 1, sleeps := [], outcome := .ok a }
    | .error e =>
      match fuel with
      | 0 => { calls := 1, sleeps := [], outcome := .error e }
      | fuel + 1 =>
        let t := fetchRetryGo res retryDelay (attempt + 1) fuel
        { calls := t.calls + 1, sleeps := retryDelay * attempt :: t.sleeps, outcome := t.outcome }

/-- The service's transaction fetch with retry: `retryLimit = 3`,
`retryDelay = 2000` (solana-service.js lines 17-18), starting at attempt 1. -/
def fetchTransactionsWithRetry (res : Nat → Except ε α) : RetryTrace ε α :=
  fetchRetryGo res 2000 1 2

/-- A value stored in the shared `CacheManager` (dynamically typed in JS). -/
inductive CVal where
  | txs (l : List Tx)
  | analysis (a : WalletAnalysis)
  | holders (l : List (String × ℚ))
deriving DecidableEq, Repr

/-- Lookup in the in-memory cache map. -/
def cacheGet (c : List (String × CVal)) (k : String) : Option CVal :=
  match c with
  | [] => none
  | (k', v) :: rest => if k' == k then some v else cacheGet rest k

/-- JS `Map.prototype.set`: replace in place if the key exists, else append. -/
def cacheSet (c : List (String × CVal)) (k : String) (v : CVal) : List (String × CVal) :=
  match c with
  | [] => [(k, v)]
  | (k', v') :: rest => if k' == k then (k, v) :: rest else (k', v') :: cacheSet rest k v

/-- Mutable state of `SolanaService` plus the shared `CacheManager`, with an
instrumentation field `computeLog` recording each wallet for which
`processWalletTransactions` was actually invoked. -/
structure SvcState where
  processedWallets : List String
  cache : List (String × CVal)
  computeLog : List String
deriving DecidableEq, Repr

/-- Embedding of `SolanaService.getTransactionHistory` (lines 69-90):
read-through cache, fetch with retry, swallow a final failure by returning `[]`.
`attempts k` is the outcome of the `k`-th fetch attempt for this wallet. -/
def getTransactionHistory (attempts : Nat → Except String (List Tx)) (wallet : String)
    (st : SvcState) : List Tx × SvcState :=
  match cacheGet st.cache ("tx_history_" ++ wallet) with
  | some (.txs l) => (l, st)
  | _ =>
    match (fetchTransactionsWithRetry attempts).outcome with
    | .ok transactions =>
      (transactions,
        if transactions.isEmpty then st
        else { st with cache := cacheSet st.cache ("tx_history_" ++ wallet) (.txs transactions) })
    | .error _ => ([], st)

/-- Embedding of `SolanaService.analyzeWallet` (lines 173-205): duplicate
suppression via `processedWallets`, analysis cache under key `analysis_<wallet>`,
otherwise fetch the history and analyze it. -/
def analyzeWallet (attempts : String → Nat → Except String (List Tx)) (now : Int)
    (wallet : String) (currentBalance : ℚ) (st : SvcState) :
    Option WalletAnalysis × SvcState :=
  if wallet ∈ st.processedWallets then (none, st)
  else
    match cacheGet st.cache ("analysis_" ++ wallet) with
    | some (.analysis a) => (some a, { st with processedWallets := wallet :: st.processedWallets })
    | _ =>
      let p := getTransactionHistory (attempts wallet) wallet
        { st with processedWallets := wallet :: st.processedWallets }
      let analysis := processWalletTransactions now wallet currentBalance p.1
      let st3 := { p.2 with computeLog := wallet :: p.2.computeLog }
      if analysis.isEligible || !p.1.isEmpty then
        (some analysis,
          { st3 with cache := cacheSet st3.cache ("analysis_" ++ wallet) (.analysis analysis) })
      else (some analysis, st3)

/-- One holder entry as produced by `fetchHoldersWithRetry`. -/
structure Holder where
  owner : String
  amount : ℚ
deriving DecidableEq, Repr

/-- State of the orchestrating run in `DiamondHandsAnalyzer.analyze`. -/
structure RunState where
  svc : SvcState
  eligibleOwners : List String
  totalEligibleKoko : ℚ
  eligibleCount : Nat
  processedCount : Nat
deriving DecidableEq, Repr

/-- Accounting step shared by both branches of the per-holder worker
(diamond-hands-analyzer.js lines 62-69): an eligible analysis is pushed onto the
eligible list, added to the running total and counted; every analyzed holder
increments the processed counter. -/
def accountHolder (st : RunState) (h : Holder) (a : WalletAnalysis) (svc' : SvcState) : RunState :=
  if a.isEligible then
    { svc := svc', eligibleOwners := h.owner :: st.eligibleOwners,
      totalEligibleKoko := st.totalEligibleKoko + h.amount,
      eligibleCount := st.eligibleCount + 1, processedCount := st.processedCount + 1 }
  else
    { svc := svc', eligibleOwners := st.eligibleOwners,
      totalEligibleKoko := st.totalEligibleKoko,
      eligibleCount := st.eligibleCount, processedCount := st.processedCount + 1 }

/-- Embedding of the per-holder worker `processBatch` inside
`DiamondHandsAnalyzer.analyze` (diamond-hands-analyzer.js lines 45-82): check the
analyzer-level cache under the bare owner key, else call `analyzeWallet` and
cache a non-null result under the bare owner key; a null result (the skip
sentinel) is not accounted, any other analysis is accounted via `accountHolder`. -/
def processHolder (attempts : String → Nat → Except String (List Tx)) (now : Int)
    (st : RunState) (h : Holder) : RunState :=
  match cacheGet st.svc.cache h.owner with
  | some (.analysis a) => accountHolder st h a st.svc
  | _ =>
    match analyzeWallet attempts now h.owner h.amount st.svc with
    | (none, s2) => { st with svc := s2 }
    | (some a, s2) => accountHolder st h a { s2 with cache := cacheSet s2.cache h.owner (.analysis a) }

/-- The run over the whole holder list.  `BatchProcessor.process` partitions the
list into batches of 50 and completes each batch before the next starts; this
models the schedule in which each holder's worker runs to completion in list
order (exact for holders in different batches, one admissible interleaving
within a batch). -/
def runHolders (attempts : String → Nat → Except String (List Tx)) (now : Int)
    (holders : List Holder) (st : RunState) : RunState :=
  holders.foldl (processHolder attempts now) st

/-- The initial run state: empty caches, no processed wallets, zero counters. -/
def initRunState : RunState :=
  { svc := { processedWallets := [], cache := [], computeLog := [] },
    eligibleOwners := [], totalEligibleKoko := 0, eligibleCount := 0, processedCount := 0 }

/-- One row of the CSV report as used by `updateAirdropShares`: `currentAmount`
is modelled as the parsed numeric balance (`parseFloat` of the formatted string),
`airdropShare` as the numeric value of the 4-decimal share string. -/
structure ShareRecord where
  status : String
  currentAmount : ℚ
  airdropShare : ℚ
deriving DecidableEq, Repr

/-- The status string written for eligible records (diamond-hands-analyzer.js line 104). -/
def ELIGIBLE_STATUS : String := "💎 ELIGIBLE"

/-- JS `Number.prototype.toFixed(4)` on a nonnegative value, as a rational:
round to the nearest multiple of `1/10000`, ties picking the larger value. -/
def round4 (x : ℚ) : ℚ := (⌊x * 10000 + 1 / 2⌋ : ℚ) / 10000

/-- Embedding of `DiamondHandsAnalyzer.updateAirdropShares` (lines 117-135):
every record whose status is eligible gets
`airdropShare = ((amount / totalEligibleKoko) * 100).toFixed(4)`. -/
def updateAirdropShares (totalEligibleKoko : ℚ) (records : List ShareRecord) :
    List ShareRecord :=
  records.map fun r =>
    if r.status == ELIGIBLE_STATUS then
      { r with airdropShare := round4 (r.currentAmount / totalEligibleKoko * 100) }
    else r

/-- A single eligible report row holding the entire pool, for the share
witness. -/
def shareRecW : ShareRecord :=
  { status := ELIGIBLE_STATUS, currentAmount := 60000000, airdropShare := 0 }

/-- A JSON value: the universe of JSON-serializable values stored by the cache
(numbers restricted to integers; JS doubles are out of scope of this model). -/
inductive JVal where
  | jnull
  | jbool (b : Bool)
  | jnum (n : Int)
  | jstr (s : String)
  | jarr (xs : List JVal)
  | jobj (fs : List (String × JVal))

/-- JSON escaping of one character (quote and backslash; the cache's keys and
values never contain control characters). -/
def escapeChar (c : Char) : List Char :=
  if c = '"' || c = '\\' then ['\\', c] else [c]

/-- JSON escaping of a character list. -/
def escapeStr : List Char → List Char
  | [] => []
  | c :: cs => escapeChar c ++ escapeStr cs

/-- Decimal character rendering of an integer (JSON number syntax). -/
def intChars (n : Int) : List Char :=
  if n < 0 then '-' :: natChars n.natAbs else natChars n.natAbs

mutual

/-- Characters of `JSON.stringify` of a value (compact form, no spaces). -/
def srepr : JVal → List Char
  | .jnull => ['n', 'u', 'l', 'l']
  | .jbool true => ['t', 'r', 'u', 'e']
  | .jbool false => ['f', 'a', 'l', 's', 'e']
  | .jnum n => intChars n
  | .jstr s => '"' :: escapeStr s.data ++ ['"']
  | .jarr xs => '[' :: sreprElems xs ++ [']']
  | .jobj fs => '\x7b' :: sreprMembers fs ++ ['\x7d']

/-- Comma-separated serialization of array elements. -/
def sreprElems : List JVal → List Char
  | [] => []
  | [x] => srepr x
  | x :: y :: ys => srepr x ++ ',' :: sreprElems (y :: ys)

/-- Comma-separated serialization of object members. -/
def sreprMembers : List (String × JVal) → List Char
  | [] => []
  | [(k, v)] => '"' :: escapeStr k.data ++ '"' :: ':' :: srepr v
  | (k, v) :: f :: fs =>
    '"' :: escapeStr k.data ++ '"' :: ':' :: srepr v ++ ',' :: sreprMembers (f :: fs)

end

/-- Consume an expected literal character sequence. -/
def expectChars : List Char → List Char → Option (List Char)
  | [], cs => some cs
  | e :: es, c :: cs => if c = e then expectChars es cs else none
  | _ :: _, [] => none

/-- Parse the body of a JSON string up to the closing quote, undoing escapes. -/
def parseStringBody : List Char → Option (List Char × List Char)
  | [] => none
  | c :: rest =>
    if c = '\\' then
      match rest with
      | [] => none
      | c2 :: rest2 => (parseStringBody rest2).map fun p => (c2 :: p.1, p.2)
    else if c = '"' then some ([], rest)
    else (parseStringBody rest).map fun p => (c :: p.1, p.2)

/-- Parse a maximal run of decimal digits as a natural number. -/
def parseNatChars (cs : List Char) : Option (Nat × List Char) :=
  let ds := cs.takeWhile Char.isDigit
  if ds.isEmpty then none
  else some (ds.foldl (fun a c => a * 10 + (c.toNat - 48)) 0, cs.dropWhile Char.isDigit)

/-- Parse a JSON number (integer syntax). -/
def parseNum (cs : List Char) : Option (JVal × List Char) :=
  match cs with
  | [] => none
  | c :: rest =>
    if c = '-' then (parseNatChars rest).map fun p => (.jnum (-(p.1 : Int)), p.2)
    else (parseNatChars (c :: rest)).map fun p => (.jnum (p.1 : Int), p.2)

mutual

/-- Parse one JSON value; `fuel` bounds the recursion depth. -/
def parseVal : Nat → List Char → Option (JVal × List Char)
  | 0, _ => none
  | fuel + 1, cs =>
    match cs with
    | [] => none
    | c :: rest =>
      if c = 'n' then (expectChars ['u', 'l', 'l'] rest).map fun r => (.jnull, r)
      else if c = 't' then (expectChars ['r', 'u', 'e'] rest).map fun r => (.jbool true, r)
      else if c = 'f' then (expectChars ['a', 'l', 's', 'e'] rest).map fun r => (.jbool false, r)
      else if c = '"' then (parseStringBody rest).map fun p => (.jstr (String.mk p.1), p.2)
      else if c = '[' then
        match rest with
        | [] => none
        | c2 :: rest2 =>
          if c2 = ']' then some (.jarr [], rest2)
          else (parseElems fuel (c2 :: rest2)).map fun p => (.jarr p.1, p.2)
      else if c = '\x7b' then
        match rest with
        | [] => none
        | c2 :: rest2 =>
          if c2 = '\x7d' then some (.jobj [], rest2)
          else (parseMembers fuel (c2 :: rest2)).map fun p => (.jobj p.1, p.2)
      else parseNum (c :: rest)

/-- Parse one or more comma-separated values followed by a closing bracket. -/
def parseElems : Nat → List Char → Option (List JVal × List Char)
  | 0, _ => none
  | fuel + 1, cs =>
    match parseVal fuel cs with
    | none => none
    | some (v, rest) =>
      match rest with
      | [] => none
      | c :: rest2 =>
        if c = ',' then (parseElems fuel rest2).map fun p => (v :: p.1, p.2)
        else if c = ']' then some ([v], rest2)
        else none

/-- Parse one or more comma-separated members followed by a closing brace. -/
def parseMembers : Nat → List Char → Option (List (String × JVal) × List Char)
  | 0, _ => none
  | fuel + 1, cs =>
    match cs with
    | [] => none
    | c :: rest =>
      if c = '"' then
        match parseStringBody rest with
        | none => none
        | some (kcs, rest1) =>
          match rest1 with
          | [] => none
          | c1 :: rest2 =>
            if c1 = ':' then
              match parseVal fuel rest2 with
              | none => none
              | some (v, rest3) =>
                match rest3 with
                | [] => none
                | c2 :: rest4 =>
                  if c2 = ',' then
                    (parseMembers fuel rest4).map fun p => ((String.mk kcs, v) :: p.1, p.2)
                  else if c2 = '\x7d' then some ([(String.mk kcs, v)], rest4)
                  else none
            else none
      else none

end

/-- Characters that may legally follow a serialized value inside a document
(separator or closing bracket), or the end of input. -/
def delimOk : List Char → Bool
  | [] => true
  | c :: _ => c = ',' || c = ']' || c = '\x7d'

/-- Value of a little-endian digit list. -/
def natFromLE : List Nat → Nat :=
  List.foldr (fun d r => d + 10 * r) 0

mutual

/-- Fuel sufficient for `parseVal` to parse this value. -/
def pfuel : JVal → Nat
  | .jnull => 1
  | .jbool _ => 1
  | .jnum _ => 1
  | .jstr _ => 1
  | .jarr xs => 1 + efuel xs
  | .jobj fs => 1 + mfuel fs

/-- Fuel sufficient for `parseElems` to parse these elements. -/
def efuel : List JVal → Nat
  | [] => 1
  | x :: xs => 1 + max (pfuel x) (efuel xs)

/-- Fuel sufficient for `parseMembers` to parse these members. -/
def mfuel : List (String × JVal) → Nat
  | [] => 1
  | (_, v) :: fs => 1 + max (pfuel v) (mfuel fs)

end

/-- Model of `JSON.parse` on a whole document (no trailing characters allowed);
the fuel `s.length + 1` always suffices (see `pfuel_le_srepr`). -/
def parseTop (s : String) : Option JVal :=
  match parseVal (s.length + 1) s.data with
  | some (v, []) => some v
  | _ => none

/-- In-memory key-value mapping of the cache (a JS `Map` of JSON values). -/
def CacheMap := List (String × JVal)

/-- JS `Map.prototype.set` on the cache mapping. -/
def cmSet : List (String × JVal) → String → JVal → List (String × JVal)
  | [], k, v => [(k, v)]
  | (k', v') :: rest, k, v =>
    if k' = k then (k, v) :: rest else (k', v') :: cmSet rest k v

/-- JS `Map.prototype.get` on the cache mapping. -/
def cmGet : List (String × JVal) → String → Option JVal
  | [], _ => none
  | (k', v') :: rest, k => if k' = k then some v' else cmGet rest k

/-- The flush scheduled by `CacheManager.scheduleWrite` (cache-manager.js lines
37-52): the file is rewritten with `JSON.stringify(Object.fromEntries(this.cache))`. -/
def cmFlushFile (mem : List (String × JVal)) : String :=
  String.mk (srepr (.jobj mem))

/-- `CacheManager.init` on a fresh instance (cache-manager.js lines 11-24): read
the file (defaulting to the empty-object text), `JSON.parse` it and build a `Map`
from the entries; a parse failure leaves the cache empty. -/
def cmInitFrom (file : Option String) : List (String × JVal) :=
  match parseTop (file.getD "\x7b\x7d") with
  | some (.jobj fs) => fs
  | _ => []

/-- Reason selection written from the spec's words, for comparison with the
code's reason functions: evaluate, in priority order, balance-too-low,
balance-too-high, has-sold, no-acquisition-found, holding-period-too-short, and
report the first failing condition's reason, else the meets-all reason. -/
def reasonPrioritySpec (noAcqReason : String) (balance : ℚ) (hasSold : Bool)
    (firstAcquired : Option Int) (holdingDays : Int) : String :=
  let conds : List (Bool × String) :=
    [(decide (balance < MIN_TOKENS), insufficientBalanceMsg balance),
     (decide (MAX_TOKENS < balance), exceedsMaxMsg balance),
     (hasSold, hasSoldMsg),
     (decide (firstAcquired = none), noAcqReason),
     (decide (holdingDays < MONTHS_REQUIRED * 30), insufficientHoldingMsg holdingDays)]
  match conds.find? (fun p => p.1) with
  | some p => p.2
  | none => meetsAllMsg

/-- A transaction acquiring 60,000,000 tokens for wallet `A` at time 0. -/
def txAcqA : Tx :=
  { blockTime := 0,
    meta := some
      { preTokenBalances := some [{ mint := KOKO_TOKEN, owner := "A", amount := 0 }],
        postTokenBalances := some [{ mint := KOKO_TOKEN, owner := "A", amount := 60000000 }] } }

/-- A transaction in which wallet `W` sells (post-balance below pre-balance). -/
def txSaleW : Tx :=
  { blockTime := 200000,
    meta := some
      { preTokenBalances := some [{ mint := KOKO_TOKEN, owner := "W", amount := 60000000 }],
        postTokenBalances := some [{ mint := KOKO_TOKEN, owner := "W", amount := 10000000 }] } }

/-- An acquisition for wallet `W` dated earlier than `txSaleW`. -/
def txEarlyAcqW : Tx :=
  { blockTime := 100,
    meta := some
      { preTokenBalances := some [{ mint := KOKO_TOKEN, owner := "W", amount := 0 }],
        postTokenBalances := some [{ mint := KOKO_TOKEN, owner := "W", amount := 60000000 }] } }

/-- A transaction carrying no parsed metadata (neither acquisition nor sale). -/
def txNoMeta : Tx := { blockTime := 0, meta := none }

/-- Fetch outcomes in which wallet `A` has one acquisition and every other
wallet has an empty (but successful) history. -/
def attemptsC3 : String → Nat → Except String (List Tx) :=
  fun w _ => .ok (if w = "A" then [txAcqA] else [])

/-- Forty-nine distinct filler holders, so that the duplicated owner lands in a
different batch of 50 in the real `BatchProcessor`. -/
def fillerHolders : List Holder :=
  (List.range 49).map fun i => { owner := "B" ++ toString i, amount := 60000000 }

/-- A holder list in which owner `A` appears at positions 0 and 50. -/
def holdersC3 : List Holder :=
  { owner := "A", amount := 60000000 } :: fillerHolders ++ [{ owner := "A", amount := 60000000 }]

/-- Fetch attempts that always fail (the retried RPC call never succeeds). -/
def attemptsFail : String → Nat → Except String (List Tx) :=
  fun _ k => .error ("rpc failure " ++ toString k)

/-- Fetch outcomes failing for wallet `W` only. -/
def attemptsC4 : String → Nat → Except String (List Tx) :=
  fun w k => if w = "W" then .error ("rpc failure " ++ toString k) else .ok []

/-- Error messages of the successive failing fetch attempts. -/
def errsW : Nat → String := fun k => "rpc failure " ++ toString k

/-- The scan never lowers `maxHeld`. -/
theorem scanTxs_maxHeld_mono (mint wallet : String) :
    ∀ (txs : List Tx) (st : ScanState), st.maxHeld ≤ (scanTxs mint wallet txs st).maxHeld := by
  intro txs
  induction txs with
  | nil => intro st; exact le_refl _
  | cons tx rest ih =>
    intro st
    simp only [scanTxs]
    by_cases hs : (analyzeTransaction mint wallet tx).sold
    · simp only [hs, if_true]
      exact le_max_left _ _
    · simp only [hs, if_false, Bool.false_eq_true]
      exact le_trans (le_max_left _ _) (ih _)

/-- C10: for every wallet, balance and transaction list, the analysis produced by
`processWalletTransactions` — including the empty-history record and the
catch-block error record — satisfies `maxHeld ≥ currentBalance`: `maxHeld`
starts at the current balance and is only ever raised. -/
theorem C10_maxHeld_ge_balance (now : Int) (wallet : String) (currentBalance : ℚ)
    (transactions : List Tx) :
    currentBalance ≤ (processWalletTransactions now wallet currentBalance transactions).maxHeld ∧
    currentBalance ≤ (noHistoryAnalysis currentBalance).maxHeld ∧
    currentBalance ≤ (errorAnalysis currentBalance).maxHeld := by
  refine ⟨?_, le_refl _, le_refl _⟩
  unfold processWalletTransactions
  by_cases h : transactions.isEmpty
  · simp only [h, if_true]
    exact le_refl _
  · simp only [h, if_false, Bool.false_eq_true]
    exact scanTxs_maxHeld_mono _ _ _ _

/-- The scan is insensitive to everything after the first sold transaction:
it equals the scan of the prefix up to and including that transaction. -/
theorem scanTxs_stop_at_sold (mint wallet : String) :
    ∀ (txs : List Tx) (i : Nat) (st : ScanState) (hi : i < txs.length),
      (analyzeTransaction mint wallet (txs.get ⟨i, hi⟩)).sold = true →
      (∀ j (hj : j < i), (analyzeTransaction mint wallet
          (txs.get ⟨j, Nat.lt_trans hj hi⟩)).sold = false) →
      scanTxs mint wallet txs st = scanTxs mint wallet (txs.take (i + 1)) st ∧
        (scanTxs mint wallet txs st).hasSold = true := by
  intro txs
  induction txs with
  | nil => intro i st hi; exact absurd hi (by simp)
  | cons tx rest ih =>
    intro i st hi hsold hbefore
    cases i with
    | zero =>
      simp only [List.get] at hsold
      simp [List.take, scanTxs, hsold]
    | succ i' =>
      have h0 : (analyzeTransaction mint wallet tx).sold = false := by
        have := hbefore 0 (Nat.succ_pos i')
        simpa using this
      simp only [List.get] at hsold
      have hi' : i' < rest.length := Nat.lt_of_succ_lt_succ hi
      have hb' : ∀ j (hj : j < i'), (analyzeTransaction mint wallet
          (rest.get ⟨j, Nat.lt_trans hj hi'⟩)).sold = false := by
        intro j hj
        have := hbefore (j + 1) (Nat.succ_lt_succ hj)
        simpa using this
      simp only [List.take, scanTxs, h0, if_false, Bool.false_eq_true]
      exact ih i' _ hi' hsold hb'

/-- C2: the first time a transaction is classified as sold, scanning stops:
the analysis equals that of the prefix up to and including the sale (so
`firstAcquired` and `maxHeld` reflect only the scanned window, and any
acquisition beyond the short-circuit point — even an earlier-dated one — is
ignored), `hasSold` is true, and eligibility is false. -/
theorem C2_short_circuit_on_sale (now : Int) (wallet : String) (currentBalance : ℚ)
    (transactions : List Tx) (i : Nat) (hi : i < transactions.length)
    (hsold : (analyzeTransaction KOKO_TOKEN wallet (transactions.get ⟨i, hi⟩)).sold = true)
    (hbefore : ∀ j (hj : j < i), (analyzeTransaction KOKO_TOKEN wallet
        (transactions.get ⟨j, Nat.lt_trans hj hi⟩)).sold = false) :
    processWalletTransactions now wallet currentBalance transactions =
      processWalletTransactions now wallet currentBalance (transactions.take (i + 1)) ∧
    (processWalletTransactions now wallet currentBalance transactions).hasSold = true ∧
    (processWalletTransactions now wallet currentBalance transactions).isEligible = false := by
  obtain ⟨heq, hhs⟩ := scanTxs_stop_at_sold KOKO_TOKEN wallet transactions i
    { firstAcquired := none, maxHeld := currentBalance, hasSold := false } hi hsold hbefore
  have hne : transactions.isEmpty = false := by
    cases transactions with
    | nil => exact absurd hi (by simp)
    | cons a l => rfl
  have hne' : (transactions.take (i + 1)).isEmpty = false := by
    cases transactions with
    | nil => exact absurd hi (by simp)
    | cons a l => rfl
  constructor
  · unfold processWalletTransactions
    simp only [hne, hne', if_false, Bool.false_eq_true, heq]
  · constructor
    · unfold processWalletTransactions
      simp only [hne, if_false, Bool.false_eq_true, hhs]
    · unfold processWalletTransactions
      simp only [hne, if_false, Bool.false_eq_true, hhs]
      simp

/-- Witness for C2: a sale at index 0 followed by an earlier-dated acquisition
at index 1; the analysis equals that of the one-transaction prefix, has
`hasSold = true` and is ineligible. -/
theorem C2_short_circuit_on_sale_witness :
    processWalletTransactions 0 "W" 10000000 [txSaleW, txEarlyAcqW] =
      processWalletTransactions 0 "W" 10000000 ([txSaleW, txEarlyAcqW].take 1) ∧
    (processWalletTransactions 0 "W" 10000000 [txSaleW, txEarlyAcqW]).hasSold = true ∧
    (processWalletTransactions 0 "W" 10000000 [txSaleW, txEarlyAcqW]).isEligible = false :=
  C2_short_circuit_on_sale 0 "W" 10000000 [txSaleW, txEarlyAcqW] 0 (by decide) (by decide)
    (fun j hj => absurd hj (Nat.not_lt_zero j))

/-- C6: both reason functions select their reason by evaluating, in priority
order, balance-too-low, balance-too-high, has-sold, no-acquisition-found,
holding-period-too-short, else the meets-all reason; exactly one reason is
returned and the earliest failing condition wins, as expressed by equality with
the first-match selection `reasonPrioritySpec` written from the spec. -/
theorem C6_reason_priority_order (b : ℚ) (hs : Bool) (fa : Option Int) (hd : Int) :
    getEligibilityReason b hs fa hd = reasonPrioritySpec unableToDetermineMsg b hs fa hd ∧
    getStatusReason b hs fa hd = reasonPrioritySpec noAcquisitionMsg b hs fa hd := by
  refine ⟨?_, ?_⟩
  · unfold getEligibilityReason reasonPrioritySpec
    split_ifs with h1 h2 h3 h4 h5 <;> simp [List.find?, *]
  · unfold getStatusReason reasonPrioritySpec
    split_ifs with h1 h2 h3 h4 h5 <;> simp [List.find?, *]

/-- Counterexample for C5 as stated: a wallet whose scan finds no acquisition
but whose balance is below the floor reports the balance reason, not the
no-acquisition reason. -/
theorem C5_balance_reason_wins_cex :
    (processWalletTransactions 0 "W" 0 [txNoMeta]).firstAcquired = none ∧
    (processWalletTransactions 0 "W" 0 [txNoMeta]).isEligible = false ∧
    (processWalletTransactions 0 "W" 0 [txNoMeta]).reason = insufficientBalanceMsg 0 ∧
    (processWalletTransactions 0 "W" 0 [txNoMeta]).reason ≠ unableToDetermineMsg ∧
    (processWalletTransactions 0 "W" 0 [txNoMeta]).reason ≠ noAcquisitionMsg := by
  decide

/-- C5 amended: a wallet whose scan yields no acquisition is always ineligible;
the no-acquisition reason is reported when additionally the balance is within
bounds and no sale was seen, while an empty history reports the no-history
reason. -/
theorem C5_no_acquisition_ineligible (now : Int) (wallet : String) (b : ℚ) (txs : List Tx)
    (hfa : (processWalletTransactions now wallet b txs).firstAcquired = none) :
    (processWalletTransactions now wallet b txs).isEligible = false ∧
    (txs ≠ [] → MIN_TOKENS ≤ b → b ≤ MAX_TOKENS →
      (processWalletTransactions now wallet b txs).hasSold = false →
      (processWalletTransactions now wallet b txs).reason = unableToDetermineMsg) ∧
    (txs = [] → (processWalletTransactions now wallet b txs).reason =
      "No transaction history found") := by
  unfold processWalletTransactions at hfa ⊢
  by_cases he : txs.isEmpty
  · simp only [he, if_true]
    refine ⟨rfl, ?_, fun _ => rfl⟩
    intro hne _ _ _
    exact absurd (List.isEmpty_iff.mp he) hne
  · simp only [he, if_false, Bool.false_eq_true] at hfa ⊢
    refine ⟨?_, ?_, ?_⟩
    · simp [hfa]
    · intro _ hmin hmax hsold
      simp [getEligibilityReason, hfa, hsold, not_lt.mpr hmin, not_lt.mpr hmax]
    · intro h
      subst h
      simp at he

/-- Witness for C5 amended: one metadata-free transaction, balance within
bounds; the analysis is ineligible with the no-acquisition reason. -/
theorem C5_no_acquisition_ineligible_witness :
    (processWalletTransactions 0 "W" 60000000 [txNoMeta]).isEligible = false ∧
    ([txNoMeta] ≠ ([] : List Tx) → MIN_TOKENS ≤ (60000000 : ℚ) → (60000000 : ℚ) ≤ MAX_TOKENS →
      (processWalletTransactions 0 "W" 60000000 [txNoMeta]).hasSold = false →
      (processWalletTransactions 0 "W" 60000000 [txNoMeta]).reason = unableToDetermineMsg) ∧
    ([txNoMeta] = ([] : List Tx) → (processWalletTransactions 0 "W" 60000000 [txNoMeta]).reason =
      "No transaction history found") :=
  C5_no_acquisition_ineligible 0 "W" 60000000 [txNoMeta] (by decide)

/-- C1: `DiamondHandsAnalyzer.analyzeHolder` omits the `MAX_TOKENS` conjunct: on
a balance of 50 billion (above the 40 billion ceiling) with an old acquisition
and no sale it returns `isEligible = true` while its own reason function
simultaneously reports the balance-exceeds-maximum reason; the service-side
`processWalletTransactions` on the same input is ineligible, as the claim
requires. -/
theorem C1_analyzeHolder_ignores_max_cb :
    (analyzeHolder 8640000000 "A" 50000000000 [txAcqA]).isEligible = true ∧
    ¬((50000000000 : ℚ) ≤ MAX_TOKENS) ∧
    (analyzeHolder 8640000000 "A" 50000000000 [txAcqA]).reason = exceedsMaxMsg 50000000000 ∧
    (processWalletTransactions 8640000000 "A" 50000000000 [txAcqA]).isEligible = false := by
  decide

/-- Counterexample for C4 as stated: with every fetch attempt failing, the
wallet's analysis carries the no-history reason, not "Error during analysis" —
the failure is swallowed inside `getTransactionHistory` — while the run still
continues over the remaining wallets. -/
theorem C4_error_reason_cex :
    (analyzeWallet attemptsFail 0 "W" 60000000 initRunState.svc).1 =
      some (noHistoryAnalysis 60000000) ∧
    (noHistoryAnalysis 60000000).reason = "No transaction history found" ∧
    (noHistoryAnalysis 60000000).reason ≠ (errorAnalysis 60000000).reason ∧
    (errorAnalysis 60000000).reason = "Error during analysis" ∧
    (noHistoryAnalysis 60000000).isEligible = false ∧
    (runHolders attemptsC4 0 [{ owner := "W", amount := 60000000 },
        { owner := "V", amount := 60000000 }] initRunState).processedCount = 2 := by
  decide

/-- C4 amended: when transaction retrieval fails on every retry,
`getTransactionHistory` catches the exhausted error and returns an empty list,
so the wallet is marked ineligible with reason "No transaction history found"
(the catch-block reason "Error during analysis" is not produced), and
`analyzeWallet` returns this analysis normally rather than propagating the
failure. -/
theorem C4_retry_exhaustion_swallowed (now : Int) (wallet : String) (b : ℚ)
    (errs : Nat → String) (st : SvcState)
    (hp : wallet ∉ st.processedWallets)
    (hca : cacheGet st.cache ("analysis_" ++ wallet) = none)
    (hct : cacheGet st.cache ("tx_history_" ++ wallet) = none) :
    (analyzeWallet (fun _ k => .error (errs k)) now wallet b st).1 =
      some (noHistoryAnalysis b) ∧
    (noHistoryAnalysis b).isEligible = false ∧
    (noHistoryAnalysis b).reason = "No transaction history found" ∧
    (noHistoryAnalysis b).reason ≠ (errorAnalysis b).reason := by
  refine ⟨?_, rfl, rfl, ?_⟩
  · unfold analyzeWallet
    rw [if_neg hp]
    simp only [getTransactionHistory, fetchTransactionsWithRetry, fetchRetryGo, hca, hct,
      processWalletTransactions, List.isEmpty_nil, if_true, noHistoryAnalysis]
    simp
  · show ("No transaction history found" : String) ≠ "Error during analysis"
    decide

/-- Witness for C4 amended: the always-failing fetch on a fresh state. -/
theorem C4_retry_exhaustion_swallowed_witness :
    (analyzeWallet (fun _ k => .error (errsW k)) 0 "W" 60000000 initRunState.svc).1 =
      some (noHistoryAnalysis 60000000) ∧
    (noHistoryAnalysis 60000000).isEligible = false ∧
    (noHistoryAnalysis 60000000).reason = "No transaction history found" ∧
    (noHistoryAnalysis 60000000).reason ≠ (errorAnalysis 60000000).reason :=
  C4_retry_exhaustion_swallowed 0 "W" 60000000 errsW initRunState.svc
    (by decide) (by decide) (by decide)

/-- `getTransactionHistory` changes only the cache, never the processed set or
the compute log. -/
theorem getTransactionHistory_state (attempts : Nat → Except String (List Tx))
    (wallet : String) (st : SvcState) :
    (getTransactionHistory attempts wallet st).2.computeLog = st.computeLog ∧
    (getTransactionHistory attempts wallet st).2.processedWallets = st.processedWallets := by
  unfold getTransactionHistory
  split
  · exact ⟨rfl, rfl⟩
  · split
    · split
      · exact ⟨rfl, rfl⟩
      · exact ⟨rfl, rfl⟩
    · exact ⟨rfl, rfl⟩

/-- How `analyzeWallet` touches the processed set and the compute log: the
processed set only grows, and the log either stays unchanged or records this
wallet once, and then only when the wallet was not yet processed. -/
theorem analyzeWallet_state (attempts : String → Nat → Except String (List Tx))
    (now : Int) (wallet : String) (b : ℚ) (st : SvcState) :
    (∀ o, o ∈ st.processedWallets →
        o ∈ (analyzeWallet attempts now wallet b st).2.processedWallets) ∧
    ((analyzeWallet attempts now wallet b st).2.computeLog = st.computeLog ∨
      (wallet ∉ st.processedWallets ∧
       (analyzeWallet attempts now wallet b st).2.computeLog = wallet :: st.computeLog ∧
       wallet ∈ (analyzeWallet attempts now wallet b st).2.processedWallets)) := by
  by_cases hp : wallet ∈ st.processedWallets
  · simp only [analyzeWallet, if_pos hp]
    exact ⟨fun o ho => ho, Or.inl trivial⟩
  · obtain ⟨hlog, hproc⟩ := getTransactionHistory_state (attempts wallet) wallet
      { st with processedWallets := wallet :: st.processedWallets }
    simp only [analyzeWallet, if_neg hp]
    split
    · exact ⟨fun o ho => List.mem_cons_of_mem _ ho, Or.inl rfl⟩
    · split
      · refine ⟨fun o ho => ?_, Or.inr ⟨hp, ?_, ?_⟩⟩
        · simp only [hproc]
          exact List.mem_cons_of_mem _ ho
        · simp only [hlog]
        · simp only [hproc]
          exact List.mem_cons_self _ _
      · refine ⟨fun o ho => ?_, Or.inr ⟨hp, ?_, ?_⟩⟩
        · simp only [hproc]
          exact List.mem_cons_of_mem _ ho
        · simp only [hlog]
        · simp only [hproc]
          exact List.mem_cons_self _ _

/-- The accounting step installs exactly the given service state. -/
theorem accountHolder_svc (st : RunState) (h : Holder) (a : WalletAnalysis) (svc' : SvcState) :
    (accountHolder st h a svc').svc = svc' := by
  unfold accountHolder
  split <;> rfl

/-- How one holder's worker touches the processed set and the compute log. -/
theorem processHolder_state (attempts : String → Nat → Except String (List Tx))
    (now : Int) (st : RunState) (h : Holder) :
    (∀ o, o ∈ st.svc.processedWallets →
        o ∈ (processHolder attempts now st h).svc.processedWallets) ∧
    ((processHolder attempts now st h).svc.computeLog = st.svc.computeLog ∨
      (h.owner ∉ st.svc.processedWallets ∧
       (processHolder attempts now st h).svc.computeLog = h.owner :: st.svc.computeLog ∧
       h.owner ∈ (processHolder attempts now st h).svc.processedWallets)) := by
  unfold processHolder
  obtain ⟨hmono, hlog⟩ := analyzeWallet_state attempts now h.owner h.amount st.svc
  split
  · rw [accountHolder_svc]
    exact ⟨fun o ho => ho, Or.inl rfl⟩
  · split
    · rename_i s2 heq
      constructor
      · intro o ho
        have hm := hmono o ho
        rw [heq] at hm
        exact hm
      · rcases hlog with h1 | ⟨hnp, h2, h3⟩
        · left; rw [heq] at h1; exact h1
        · right
          rw [heq] at h2 h3
          exact ⟨hnp, h2, h3⟩
    · rename_i a s2 heq
      rw [accountHolder_svc]
      constructor
      · intro o ho
        have hm := hmono o ho
        rw [heq] at hm
        exact hm
      · rcases hlog with h1 | ⟨hnp, h2, h3⟩
        · left; rw [heq] at h1; exact h1
        · right
          rw [heq] at h2 h3
          exact ⟨hnp, h2, h3⟩

/-- The per-run invariant: each owner's analysis has been computed at most once,
and computed owners are in the processed set. -/
theorem processHolder_computeLog_inv (attempts : String → Nat → Except String (List Tx))
    (now : Int) (st : RunState) (h : Holder)
    (hinv : ∀ o, st.svc.computeLog.count o ≤ 1 ∧
      (o ∈ st.svc.computeLog → o ∈ st.svc.processedWallets)) :
    ∀ o, (processHolder attempts now st h).svc.computeLog.count o ≤ 1 ∧
      (o ∈ (processHolder attempts now st h).svc.computeLog →
        o ∈ (processHolder attempts now st h).svc.processedWallets) := by
  intro o
  obtain ⟨hmono, hlog⟩ := processHolder_state attempts now st h
  rcases hlog with h1 | ⟨hnp, h2, h3⟩
  · refine ⟨?_, ?_⟩
    · rw [h1]; exact (hinv o).1
    · intro ho
      rw [h1] at ho
      exact hmono o ((hinv o).2 ho)
  · have hnl : h.owner ∉ st.svc.computeLog := fun hin => hnp ((hinv h.owner).2 hin)
    refine ⟨?_, ?_⟩
    · rw [h2]
      by_cases heq : o = h.owner
      · subst heq
        rw [List.count_cons_self, List.count_eq_zero.mpr hnl]
      · rw [List.count_cons_of_ne heq]
        exact (hinv o).1
    · intro ho
      rw [h2] at ho
      rcases List.mem_cons.mp ho with rfl | ho'
      · exact h3
      · exact hmono o ((hinv o).2 ho')

/-- The invariant holds along the whole run. -/
theorem runHolders_computeLog_inv (attempts : String → Nat → Except String (List Tx))
    (now : Int) :
    ∀ (holders : List Holder) (st : RunState),
      (∀ o, st.svc.computeLog.count o ≤ 1 ∧
        (o ∈ st.svc.computeLog → o ∈ st.svc.processedWallets)) →
      ∀ o, (runHolders attempts now holders st).svc.computeLog.count o ≤ 1 ∧
        (o ∈ (runHolders attempts now holders st).svc.computeLog →
          o ∈ (runHolders attempts now holders st).svc.processedWallets) := by
  intro holders
  induction holders with
  | nil => intro st hinv; exact hinv
  | cons h rest ih =>
    intro st hinv
    exact ih (processHolder attempts now st h) (processHolder_computeLog_inv attempts now st h hinv)

/-- C3 amended, first half: over a whole run from the initial state, each
owner's wallet analysis is computed (`processWalletTransactions` invoked) at
most once, whatever the holder list. -/
theorem C3_analysis_computed_once (attempts : String → Nat → Except String (List Tx))
    (now : Int) (holders : List Holder) (o : String) :
    (runHolders attempts now holders initRunState).svc.computeLog.count o ≤ 1 :=
  (runHolders_computeLog_inv attempts now holders initRunState
    (fun o' => ⟨by simp [initRunState], by simp [initRunState]⟩) o).1

set_option maxRecDepth 100000 in
/-- Counterexample for C3 as stated: with owner `A` appearing at positions 0 and
50 of the holder list (different batches of 50), the second occurrence is served
the first occurrence's analysis from the analyzer-level cache and is accounted
again — the eligible count ends at 2 and `A` is pushed onto the eligible list
twice — even though the analysis itself was computed only once. -/
theorem C3_duplicate_owner_double_count_cex :
    (runHolders attemptsC3 8640000000 holdersC3 initRunState).eligibleCount = 2 ∧
    (runHolders attemptsC3 8640000000 holdersC3 initRunState).eligibleOwners = ["A", "A"] ∧
    (runHolders attemptsC3 8640000000 holdersC3 initRunState).svc.computeLog.count "A" = 1 := by
  decide

/-- The retry loop performs at most `fuel` invocations. -/
theorem withRetryGo_calls_le {ε α : Type} (res : Nat → Except ε α) (o : RetryOptions) :
    ∀ (fuel attempt : Nat) (lastErr : Option ε),
      (withRetryGo res o lastErr attempt fuel).calls ≤ fuel := by
  intro fuel
  induction fuel with
  | zero => intro attempt lastErr; exact Nat.le_refl 0
  | succ f ih =>
    intro attempt lastErr
    simp only [withRetryGo]
    cases res attempt with
    | ok a => exact Nat.le_add_left 1 f
    | error e =>
      by_cases hlt : attempt < o.retries
      · simp only [hlt, if_true]
        exact Nat.succ_le_succ (ih (attempt + 1) (some e))
      · simp only [hlt, if_false]
        exact Nat.le_add_left 1 f

/-- Full characterization of the retry loop when every attempt fails. -/
theorem withRetryGo_allfail {ε α : Type} (res : Nat → Except ε α) (e : Nat → ε)
    (o : RetryOptions) (hres : ∀ k, res k = .error (e k)) :
    ∀ (fuel attempt : Nat) (lastErr : Option ε), 1 ≤ fuel → attempt + fuel = o.retries + 1 →
      withRetryGo res o lastErr attempt fuel =
        { calls := fuel,
          sleeps := (List.range (fuel - 1)).map (fun i => backoffDelay o (attempt + i)),
          outcome := .error (some (e o.retries)) } := by
  intro fuel
  induction fuel with
  | zero => intro attempt lastErr h1; exact absurd h1 (by omega)
  | succ f ih =>
    intro attempt lastErr _ hsum
    cases f with
    | zero =>
      have ha : attempt = o.retries := by omega
      simp only [withRetryGo, hres attempt]
      rw [if_neg (by omega)]
      simp [ha]
    | succ f' =>
      have hlt : attempt < o.retries := by omega
      rw [withRetryGo]
      simp only [hres attempt]
      rw [if_pos hlt]
      rw [ih (attempt + 1) (some (e attempt)) (by omega) (by omega)]
      have hsl : (List.range (f' + 1 + 1 - 1)).map (fun i => backoffDelay o (attempt + i)) =
          backoffDelay o attempt ::
            (List.range (f' + 1 - 1)).map (fun i => backoffDelay o (attempt + 1 + i)) := by
        simp only [Nat.add_sub_cancel, List.range_succ_eq_map, List.map_cons, List.map_map,
          Nat.add_zero]
        congr 1
        apply List.map_congr_left
        intro i _
        simp only [Function.comp]
        congr 1
        omega
      rw [hsl]

/-- C7: the retry helper invokes the operation at most `retries` times in
general; when every attempt fails, precisely `retries` invocations occur,
failed attempt `k` (for `1 ≤ k < retries`) is followed by a sleep of exactly
`min(minTimeout * 2^(k-1), maxTimeout)` — deterministic, no jitter — and the
last attempt's error is propagated unchanged (wrapped only by the `Option` that
models the JS `lastError` variable).  The service's own retry wrappers
(`fetchTransactionsWithRetry` / `fetchHoldersWithRetry`, retryLimit 3,
retryDelay 2000) realize the same schedule on their two sleeps —
`2000·2⁰, 2000·2¹` — invoke the operation three times, and also propagate the
final error unchanged. -/
theorem C7_retry_backoff_schedule {ε α : Type} (res : Nat → Except ε α) (e : Nat → ε)
    (o : RetryOptions) (hres : ∀ k, res k = .error (e k)) (hr : 1 ≤ o.retries) :
    (∀ (res' : Nat → Except ε α), (withRetry res' o).calls ≤ o.retries) ∧
    (withRetry res o).calls = o.retries ∧
    (withRetry res o).sleeps = (List.range (o.retries - 1)).map
      (fun i => min (o.minTimeout * 2 ^ i) o.maxTimeout) ∧
    (withRetry res o).outcome = .error (some (e o.retries)) ∧
    (fetchTransactionsWithRetry res).calls = 3 ∧
    (fetchTransactionsWithRetry res).sleeps = [2000 * 2 ^ 0, 2000 * 2 ^ 1] ∧
    (fetchTransactionsWithRetry res).outcome = .error (e 3) := by
  have hmain := withRetryGo_allfail res e o hres o.retries 1 none hr (by omega)
  refine ⟨fun res' => withRetryGo_calls_le res' o o.retries 1 none, ?_, ?_, ?_, ?_, ?_, ?_⟩
  · rw [withRetry, hmain]
  · rw [withRetry, hmain]
    apply List.map_congr_left
    intro i _
    show backoffDelay o (1 + i) = min (o.minTimeout * 2 ^ i) o.maxTimeout
    unfold backoffDelay
    have h1 : 1 + i - 1 = i := by omega
    rw [h1]
  · rw [withRetry, hmain]
  · simp [fetchTransactionsWithRetry, fetchRetryGo, hres]
  · simp [fetchTransactionsWithRetry, fetchRetryGo, hres]
  · simp [fetchTransactionsWithRetry, fetchRetryGo, hres]

/-- Witness for C7 at `RETRY_OPTIONS = {retries 3, minTimeout 1000, maxTimeout 3000}`
with every attempt failing. -/
theorem C7_retry_backoff_schedule_witness :
    (∀ (res' : Nat → Except String Unit),
      (withRetry res' { retries := 3, minTimeout := 1000, maxTimeout := 3000 }).calls ≤ 3) ∧
    (withRetry (fun k => (.error (toString k) : Except String Unit))
      { retries := 3, minTimeout := 1000, maxTimeout := 3000 }).calls = 3 ∧
    (withRetry (fun k => (.error (toString k) : Except String Unit))
      { retries := 3, minTimeout := 1000, maxTimeout := 3000 }).sleeps = (List.range 2).map
      (fun i => min (1000 * 2 ^ i) 3000) ∧
    (withRetry (fun k => (.error (toString k) : Except String Unit))
      { retries := 3, minTimeout := 1000, maxTimeout := 3000 }).outcome =
        .error (some (toString 3)) ∧
    (fetchTransactionsWithRetry (fun k => (.error (toString k) : Except String Unit))).calls = 3 ∧
    (fetchTransactionsWithRetry (fun k => (.error (toString k) : Except String Unit))).sleeps =
      [2000 * 2 ^ 0, 2000 * 2 ^ 1] ∧
    (fetchTransactionsWithRetry (fun k => (.error (toString k) : Except String Unit))).outcome =
      .error (toString 3) :=
  C7_retry_backoff_schedule (fun k => .error (toString k)) toString
    { retries := 3, minTimeout := 1000, maxTimeout := 3000 } (fun _ => rfl) (by decide)

/-- Rounding to four decimal places moves a value by at most half of 1/10⁴. -/
theorem round4_close (x : ℚ) : |round4 x - x| ≤ 1 / 20000 := by
  unfold round4
  have h1 : (⌊x * 10000 + 1 / 2⌋ : ℚ) ≤ x * 10000 + 1 / 2 := Int.floor_le _
  have h2 : x * 10000 + 1 / 2 - 1 < (⌊x * 10000 + 1 / 2⌋ : ℚ) := Int.sub_one_lt_floor _
  rw [abs_le]
  constructor <;> linarith

/-- The summed rounding error over a list is at most its length times 1/20000. -/
theorem sum_round4_close (l : List ℚ) :
    |(l.map round4).sum - l.sum| ≤ (l.length : ℚ) * (1 / 20000) := by
  induction l with
  | nil => simp
  | cons x xs ih =>
    simp only [List.map_cons, List.sum_cons, List.length_cons]
    have key : round4 x + (xs.map round4).sum - (x + xs.sum) =
        (round4 x - x) + ((xs.map round4).sum - xs.sum) := by ring
    rw [key]
    calc |(round4 x - x) + ((xs.map round4).sum - xs.sum)| ≤
        |round4 x - x| + |(xs.map round4).sum - xs.sum| := abs_add _ _
      _ ≤ 1 / 20000 + (xs.length : ℚ) * (1 / 20000) := add_le_add (round4_close x) ih
      _ = ((xs.length + 1 : Nat) : ℚ) * (1 / 20000) := by push_cast; ring

/-- The eligible rows of the updated table are the updated eligible rows. -/
theorem updateAirdropShares_filter (total : ℚ) (records : List ShareRecord) :
    (updateAirdropShares total records).filter (fun r => r.status == ELIGIBLE_STATUS) =
      (records.filter (fun r => r.status == ELIGIBLE_STATUS)).map
        (fun r => { r with airdropShare := round4 (r.currentAmount / total * 100) }) := by
  induction records with
  | nil => rfl
  | cons r rs ih =>
    simp only [updateAirdropShares, List.map_cons] at ih ⊢
    by_cases hp : r.status == ELIGIBLE_STATUS
    · rw [if_pos hp]
      simp only [List.filter_cons, hp, if_true, List.map_cons]
      exact congrArg _ ih
    · rw [if_neg hp]
      simp only [List.filter_cons, hp, Bool.false_eq_true, if_false]
      exact ih

/-- Distributing the share formula over a sum of balances. -/
theorem sum_map_div_mul (l : List ℚ) (t : ℚ) :
    (l.map (fun a => a / t * 100)).sum = l.sum / t * 100 := by
  induction l with
  | nil => simp
  | cons a xs ih =>
    simp only [List.map_cons, List.sum_cons, ih]
    ring

/-- C8: after the share-finalization pass every eligible record carries
`airdropShare = round4((balance / totalEligibleBalance) * 100)` (the rational
value of the 4-decimal `toFixed` string), and when the total is the sum of the
eligible records' balances the shares sum to 100 up to the accumulated
4-decimal rounding error of at most `n/20000`. -/
theorem C8_share_finalization (records : List ShareRecord) (total : ℚ)
    (htot : total = ((records.filter (fun r => r.status == ELIGIBLE_STATUS)).map
      (fun r => r.currentAmount)).sum)
    (hpos : 0 < total) :
    (∀ r ∈ updateAirdropShares total records, r.status == ELIGIBLE_STATUS →
      r.airdropShare = round4 (r.currentAmount / total * 100)) ∧
    |(((updateAirdropShares total records).filter
        (fun r => r.status == ELIGIBLE_STATUS)).map (fun r => r.airdropShare)).sum - 100| ≤
      ((records.filter (fun r => r.status == ELIGIBLE_STATUS)).length : ℚ) * (1 / 20000) := by
  constructor
  · intro r hr hst
    simp only [updateAirdropShares, List.mem_map] at hr
    obtain ⟨r0, hr0, rfl⟩ := hr
    by_cases hp : r0.status == ELIGIBLE_STATUS
    · simp only [if_pos hp]
    · rw [if_neg hp] at hst ⊢
      exact absurd hst hp
  · rw [updateAirdropShares_filter, List.map_map]
    have hcomp : ((fun r : ShareRecord => r.airdropShare) ∘
        (fun r => { r with airdropShare := round4 (r.currentAmount / total * 100) })) =
        (fun r : ShareRecord => round4 (r.currentAmount / total * 100)) := by
      funext r
      rfl
    rw [hcomp]
    have hmm : (records.filter (fun r => r.status == ELIGIBLE_STATUS)).map
        (fun r : ShareRecord => round4 (r.currentAmount / total * 100)) =
        (((records.filter (fun r => r.status == ELIGIBLE_STATUS)).map
          (fun r : ShareRecord => r.currentAmount)).map (fun a => a / total * 100)).map round4 := by
      rw [List.map_map, List.map_map]
      rfl
    rw [hmm]
    have hsum : (((records.filter (fun r => r.status == ELIGIBLE_STATUS)).map
        (fun r : ShareRecord => r.currentAmount)).map (fun a => a / total * 100)).sum = 100 := by
      rw [sum_map_div_mul, ← htot, div_self (ne_of_gt hpos)]
      norm_num
    have hlen : (((records.filter (fun r => r.status == ELIGIBLE_STATUS)).map
        (fun r : ShareRecord => r.currentAmount)).map (fun a => a / total * 100)).length =
        (records.filter (fun r => r.status == ELIGIBLE_STATUS)).length := by
      simp
    calc |((((records.filter (fun r => r.status == ELIGIBLE_STATUS)).map
          (fun r : ShareRecord => r.currentAmount)).map (fun a => a / total * 100)).map
            round4).sum - 100| =
        |((((records.filter (fun r => r.status == ELIGIBLE_STATUS)).map
          (fun r : ShareRecord => r.currentAmount)).map (fun a => a / total * 100)).map
            round4).sum -
          (((records.filter (fun r => r.status == ELIGIBLE_STATUS)).map
            (fun r : ShareRecord => r.currentAmount)).map (fun a => a / total * 100)).sum| := by
          rw [hsum]
      _ ≤ _ := by
          have := sum_round4_close (((records.filter
            (fun r => r.status == ELIGIBLE_STATUS)).map
              (fun r : ShareRecord => r.currentAmount)).map (fun a => a / total * 100))
          rw [hlen] at this
          exact this

/-- Witness for C8: one eligible record whose balance is the whole pool; its
share is 100.0000 exactly and the sum deviates from 100 by at most 1/20000. -/
theorem C8_share_finalization_witness :
    (∀ r ∈ updateAirdropShares 60000000 [shareRecW],
      r.status == ELIGIBLE_STATUS → r.airdropShare = round4 (r.currentAmount / 60000000 * 100)) ∧
    |(((updateAirdropShares 60000000 [shareRecW]).filter
        (fun r => r.status == ELIGIBLE_STATUS)).map (fun r => r.airdropShare)).sum - 100| ≤
      (([shareRecW].filter
          (fun r : ShareRecord => r.status == ELIGIBLE_STATUS)).length : ℚ) * (1 / 20000) :=
  C8_share_finalization [shareRecW] 60000000
    (by norm_num [shareRecW, ELIGIBLE_STATUS]) (by norm_num)

/-- Every digit produced by the digit expansion is below ten. -/
theorem natDigsAux_lt_ten : ∀ (fuel n d : Nat), d ∈ natDigsAux fuel n → d < 10 := by
  intro fuel
  induction fuel with
  | zero => intro n d h; simp [natDigsAux] at h
  | succ f ih =>
    intro n d h
    simp only [natDigsAux] at h
    by_cases hn : n = 0
    · simp [hn] at h
    · rw [if_neg hn] at h
      rcases List.mem_cons.mp h with rfl | h'
      · exact Nat.mod_lt _ (by omega)
      · exact ih _ _ h'

/-- The digit expansion is exact when the fuel covers the number. -/
theorem natDigsAux_value : ∀ (fuel n : Nat), n ≤ fuel → natFromLE (natDigsAux fuel n) = n := by
  intro fuel
  induction fuel with
  | zero => intro n h; interval_cases n; rfl
  | succ f ih =>
    intro n h
    simp only [natDigsAux]
    by_cases hn : n = 0
    · simp [hn, natFromLE]
    · rw [if_neg hn]
      simp only [natFromLE, List.foldr_cons]
      have hrec : natFromLE (natDigsAux f (n / 10)) = n / 10 := by
        apply ih
        omega
      simp only [natFromLE] at hrec
      rw [hrec]
      omega

/-- Digit characters are digits and decode back to their value. -/
theorem digitChar_spec (d : Nat) (h : d < 10) :
    (digitChar d).isDigit = true ∧ (digitChar d).toNat - 48 = d := by
  interval_cases d <;> exact ⟨by decide, by decide⟩

/-- All characters of the decimal rendering are digits. -/
theorem natChars_digits (n : Nat) : ∀ c ∈ natChars n, c.isDigit = true := by
  intro c hc
  unfold natChars at hc
  by_cases hn : n = 0
  · rw [if_pos hn] at hc
    simp at hc
    subst hc
    decide
  · rw [if_neg hn] at hc
    rw [List.mem_reverse, List.mem_map] at hc
    obtain ⟨d, hd, rfl⟩ := hc
    exact (digitChar_spec d (natDigsAux_lt_ten _ _ _ hd)).1

/-- The decimal rendering is never empty. -/
theorem natChars_ne_nil (n : Nat) : natChars n ≠ [] := by
  unfold natChars
  by_cases hn : n = 0
  · simp [hn]
  · rw [if_neg hn]
    have : natDigsAux n n ≠ [] := by
      cases n with
      | zero => exact absurd rfl hn
      | succ m =>
        simp only [natDigsAux]
        rw [if_neg hn]
        exact List.cons_ne_nil _ _
    simp only [ne_eq, List.reverse_eq_nil_iff, List.map_eq_nil_iff]
    exact this

/-- Folding the rendered digits big-endian recovers the value. -/
theorem foldl_digitChars (le : List Nat) (h : ∀ d ∈ le, d < 10) :
    ((le.map digitChar).reverse).foldl (fun a c => a * 10 + (c.toNat - 48)) 0 = natFromLE le := by
  induction le with
  | nil => rfl
  | cons d le' ih =>
    simp only [List.map_cons, List.reverse_cons, List.foldl_append, List.foldl_cons,
      List.foldl_nil]
    rw [ih (fun x hx => h x (List.mem_cons_of_mem _ hx))]
    have hd := (digitChar_spec d (h d (List.mem_cons_self _ _))).2
    simp only [natFromLE, List.foldr_cons]
    simp only [natFromLE] at *
    rw [hd]
    omega

/-- Parsing the decimal rendering of `n` recovers `n`. -/
theorem parseFold_natChars (n : Nat) :
    (natChars n).foldl (fun a c => a * 10 + (c.toNat - 48)) 0 = n := by
  unfold natChars
  by_cases hn : n = 0
  · simp [hn]
  · rw [if_neg hn]
    unfold natDigits
    rw [foldl_digitChars _ (fun d hd => natDigsAux_lt_ten _ _ _ hd)]
    exact natDigsAux_value n n (le_refl n)

/-- `takeWhile` and `dropWhile` split exactly at an appended non-matching tail. -/
theorem takeWhile_append_all {p : Char → Bool} :
    ∀ (l rest : List Char), (∀ c ∈ l, p c = true) →
      (∀ c cs, rest = c :: cs → p c = false) →
      (l ++ rest).takeWhile p = l ∧ (l ++ rest).dropWhile p = rest := by
  intro l
  induction l with
  | nil =>
    intro rest _ hrest
    cases rest with
    | nil => exact ⟨rfl, rfl⟩
    | cons c cs =>
      have hc := hrest c cs rfl
      simp only [List.nil_append]
      exact ⟨List.takeWhile_cons_of_neg (by simp [hc]),
        List.dropWhile_cons_of_neg (by simp [hc])⟩
  | cons c l' ih =>
    intro rest hl hrest
    have hc : p c = true := hl c (List.mem_cons_self _ _)
    obtain ⟨ht, hd⟩ := ih rest (fun x hx => hl x (List.mem_cons_of_mem _ hx)) hrest
    simp only [List.cons_append]
    exact ⟨by rw [List.takeWhile_cons_of_pos hc, ht],
      by rw [List.dropWhile_cons_of_pos hc, hd]⟩

/-- Legal delimiters are not digits. -/
theorem delimOk_not_digit {rest : List Char} (h : delimOk rest = true) :
    ∀ c cs, rest = c :: cs → c.isDigit = false := by
  intro c cs hrest
  subst hrest
  simp only [delimOk, Bool.or_eq_true, decide_eq_true_eq] at h
  rcases h with (h | h) | h <;> subst h <;> decide

/-- Parsing a rendered natural number consumes exactly its digits. -/
theorem parseNatChars_rt (n : Nat) (rest : List Char) (hrest : delimOk rest = true) :
    parseNatChars (natChars n ++ rest) = some (n, rest) := by
  obtain ⟨ht, hd⟩ := takeWhile_append_all (natChars n) rest (natChars_digits n)
    (delimOk_not_digit hrest)
  unfold parseNatChars
  simp only [ht, hd]
  rw [if_neg (by simp [natChars_ne_nil n])]
  rw [parseFold_natChars]

/-- A digit character is distinct from every dispatch character of the parser. -/
theorem isDigit_ne {c : Char} (h : c.isDigit = true) :
    c ≠ 'n' ∧ c ≠ 't' ∧ c ≠ 'f' ∧ c ≠ '"' ∧ c ≠ '[' ∧ c ≠ '\x7b' ∧ c ≠ '-' ∧
      c ≠ ']' ∧ c ≠ '\x7d' ∧ c ≠ ',' ∧ c ≠ ':' ∧ c ≠ '\\' := by
  refine ⟨?_, ?_, ?_, ?_, ?_, ?_, ?_, ?_, ?_, ?_, ?_, ?_⟩ <;>
    (intro hc; rw [hc] at h; exact absurd h (by decide))

/-- Parsing a rendered integer recovers it. -/
theorem parseNum_rt (n : Int) (rest : List Char) (hrest : delimOk rest = true) :
    parseNum (intChars n ++ rest) = some (.jnum n, rest) := by
  obtain ⟨c, tl, hchars⟩ : ∃ c tl, natChars n.natAbs = c :: tl := by
    cases hnc : natChars n.natAbs with
    | nil => exact absurd hnc (natChars_ne_nil _)
    | cons c tl => exact ⟨c, tl, rfl⟩
  have hcdig : c.isDigit = true := natChars_digits n.natAbs c (by rw [hchars]; exact List.mem_cons_self _ _)
  unfold intChars
  by_cases hneg : n < 0
  · rw [if_pos hneg]
    simp only [List.cons_append, parseNum]
    rw [parseNatChars_rt n.natAbs rest hrest]
    simp only [Option.map_some']
    have hval : -(n.natAbs : Int) = n := by omega
    rw [hval]
    simp
  · rw [if_neg hneg]
    rw [hchars]
    simp only [List.cons_append, parseNum]
    rw [if_neg (isDigit_ne hcdig).2.2.2.2.2.2.1]
    rw [← List.cons_append, ← hchars, parseNatChars_rt n.natAbs rest hrest]
    simp only [Option.map_some']
    have hval : (n.natAbs : Int) = n := by omega
    rw [hval]

/-- Parsing an escaped string body stops at the closing quote and undoes the
escapes. -/
theorem parseStringBody_rt : ∀ (l rest : List Char),
    parseStringBody (escapeStr l ++ '"' :: rest) = some (l, rest) := by
  intro l
  induction l with
  | nil =>
    intro rest
    show parseStringBody ('"' :: rest) = some ([], rest)
    rw [parseStringBody.eq_def]
    simp
  | cons c l' ih =>
    intro rest
    simp only [escapeStr, escapeChar]
    by_cases hc : c = '"' || c = '\\'
    · rw [if_pos hc]
      simp only [List.cons_append]
      rw [parseStringBody.eq_def]
      simp [ih rest]
    · rw [if_neg hc]
      simp only [List.cons_append]
      rw [parseStringBody.eq_def]
      have h1 : ¬ c = '\\' := fun hcc => hc (by rw [hcc]; simp)
      have h2 : ¬ c = '"' := fun hcc => hc (by rw [hcc]; simp)
      simp [h1, h2, ih rest]

/-- Every serialized value starts with a character that is not a closing
bracket, closing brace or comma. -/
theorem srepr_shape (v : JVal) :
    ∃ c tl, srepr v = c :: tl ∧ c ≠ ']' ∧ c ≠ '\x7d' ∧ c ≠ ',' := by
  cases v with
  | jnull => refine ⟨'n', _, rfl, ?_, ?_, ?_⟩ <;> decide
  | jbool b =>
    cases b with
    | true => refine ⟨'t', _, rfl, ?_, ?_, ?_⟩ <;> decide
    | false => refine ⟨'f', _, rfl, ?_, ?_, ?_⟩ <;> decide
  | jstr s => refine ⟨'"', _, rfl, ?_, ?_, ?_⟩ <;> decide
  | jarr xs => refine ⟨'[', _, rfl, ?_, ?_, ?_⟩ <;> decide
  | jobj fs => refine ⟨'\x7b', _, rfl, ?_, ?_, ?_⟩ <;> decide
  | jnum n =>
    obtain ⟨c, tl, hchars⟩ : ∃ c tl, natChars n.natAbs = c :: tl := by
      cases hnc : natChars n.natAbs with
      | nil => exact absurd hnc (natChars_ne_nil _)
      | cons c tl => exact ⟨c, tl, rfl⟩
    have hcdig : c.isDigit = true := natChars_digits n.natAbs c
      (by rw [hchars]; exact List.mem_cons_self _ _)
    obtain ⟨_, _, _, _, _, _, _, h8, h9, h10, _, _⟩ := isDigit_ne hcdig
    simp only [srepr, intChars]
    by_cases hneg : n < 0
    · rw [if_pos hneg]
      exact ⟨'-', _, rfl, by decide, by decide, by decide⟩
    · rw [if_neg hneg, hchars]
      exact ⟨c, tl, rfl, h8, h9, h10⟩

/-- Every value needs at least one unit of fuel. -/
theorem pfuel_pos (v : JVal) : 1 ≤ pfuel v := by
  cases v <;> simp [pfuel]

/-- Element lists need at least one unit of fuel. -/
theorem efuel_pos (xs : List JVal) : 1 ≤ efuel xs := by
  cases xs <;> simp [efuel]

/-- Member lists need at least one unit of fuel. -/
theorem mfuel_pos (fs : List (String × JVal)) : 1 ≤ mfuel fs := by
  cases fs with
  | nil => simp [mfuel]
  | cons f fs => obtain ⟨k, v⟩ := f; simp [mfuel]

/-- The parser inverts the serializer: with enough fuel, parsing a serialized
value (followed by a legal delimiter) returns exactly that value and leaves the
delimiter. -/
theorem parse_srepr (fuel : Nat) :
    (∀ (v : JVal) (rest : List Char), pfuel v ≤ fuel → delimOk rest = true →
      parseVal fuel (srepr v ++ rest) = some (v, rest)) ∧
    (∀ (xs : List JVal) (rest : List Char), xs ≠ [] → efuel xs ≤ fuel →
      parseElems fuel (sreprElems xs ++ ']' :: rest) = some (xs, rest)) ∧
    (∀ (fs : List (String × JVal)) (rest : List Char), fs ≠ [] → mfuel fs ≤ fuel →
      parseMembers fuel (sreprMembers fs ++ '\x7d' :: rest) = some (fs, rest)) := by
  induction fuel with
  | zero =>
    refine ⟨fun v _ hf _ => absurd hf ?_, fun xs _ _ hf => absurd hf ?_,
      fun fs _ _ hf => absurd hf ?_⟩
    · have := pfuel_pos v; omega
    · have := efuel_pos xs; omega
    · have := mfuel_pos fs; omega
  | succ fuel ih =>
    obtain ⟨ihv, ihe, ihm⟩ := ih
    have hvals : ∀ (v : JVal) (rest : List Char), pfuel v ≤ fuel + 1 → delimOk rest = true →
        parseVal (fuel + 1) (srepr v ++ rest) = some (v, rest) := by
      intro v rest hf hrest
      cases v with
      | jnull =>
        simp only [srepr, List.cons_append, List.nil_append]
        rw [parseVal.eq_def]
        simp [expectChars]
      | jbool b =>
        cases b <;>
          (simp only [srepr, List.cons_append, List.nil_append]
           rw [parseVal.eq_def]
           simp [expectChars])
      | jnum n =>
        have hpn := parseNum_rt n rest hrest
        obtain ⟨c, tl, hchars⟩ : ∃ c tl, natChars n.natAbs = c :: tl := by
          cases hnc : natChars n.natAbs with
          | nil => exact absurd hnc (natChars_ne_nil _)
          | cons c tl => exact ⟨c, tl, rfl⟩
        have hcdig : c.isDigit = true := natChars_digits n.natAbs c
          (by rw [hchars]; exact List.mem_cons_self _ _)
        simp only [srepr] at hpn ⊢
        unfold intChars at hpn ⊢
        by_cases hneg : n < 0
        · rw [if_pos hneg] at hpn ⊢
          simp only [List.cons_append] at hpn ⊢
          rw [parseVal.eq_def]
          simpa using hpn
        · rw [if_neg hneg] at hpn ⊢
          rw [hchars] at hpn ⊢
          simp only [List.cons_append] at hpn ⊢
          obtain ⟨h1, h2, h3, h4, h5, h6, _, _, _, _, _, _⟩ := isDigit_ne hcdig
          rw [parseVal.eq_def]
          simp only [if_neg h1, if_neg h2, if_neg h3, if_neg h4, if_neg h5, if_neg h6]
          exact hpn
      | jstr s =>
        obtain ⟨sd⟩ := s
        have hsb := parseStringBody_rt sd rest
        simp only [srepr, List.cons_append, List.append_assoc, List.singleton_append]
        rw [parseVal.eq_def]
        simp [hsb]
      | jarr xs =>
        cases xs with
        | nil =>
          simp only [srepr, sreprElems, List.nil_append, List.cons_append,
            List.singleton_append]
          rw [parseVal.eq_def]
          simp
        | cons x xs' =>
          obtain ⟨c2, tl2, hcons, hne2⟩ :
              ∃ c2 tl2, sreprElems (x :: xs') = c2 :: tl2 ∧ c2 ≠ ']' := by
            obtain ⟨c0, tl0, hx, hc0a, _, _⟩ := srepr_shape x
            cases xs' with
            | nil => exact ⟨c0, tl0, by simp only [sreprElems]; exact hx, hc0a⟩
            | cons y ys =>
              exact ⟨c0, tl0 ++ ',' :: sreprElems (y :: ys),
                by simp only [sreprElems, hx, List.cons_append], hc0a⟩
          have hfe : efuel (x :: xs') ≤ fuel := by
            simp only [pfuel] at hf
            omega
          have hPE : parseElems fuel (c2 :: (tl2 ++ ']' :: rest)) = some (x :: xs', rest) := by
            rw [← List.cons_append, ← hcons]
            exact ihe (x :: xs') rest (List.cons_ne_nil _ _) hfe
          simp only [srepr, List.cons_append, List.append_assoc, List.singleton_append,
            List.nil_append]
          rw [hcons]
          simp only [List.cons_append]
          rw [parseVal.eq_def]
          simp [hne2, hPE]
      | jobj fs =>
        cases fs with
        | nil =>
          simp only [srepr, sreprMembers, List.nil_append, List.cons_append,
            List.singleton_append]
          rw [parseVal.eq_def]
          simp
        | cons f fs' =>
          obtain ⟨k, v0⟩ := f
          obtain ⟨tl2, hcons⟩ : ∃ tl2, sreprMembers ((k, v0) :: fs') = '"' :: tl2 := by
            cases fs' with
            | nil =>
              exact ⟨escapeStr k.data ++ '"' :: ':' :: srepr v0,
                by simp only [sreprMembers, List.cons_append]⟩
            | cons g gs =>
              exact ⟨escapeStr k.data ++ '"' :: ':' :: srepr v0 ++ ',' :: sreprMembers (g :: gs),
                by simp only [sreprMembers, List.cons_append]⟩
          have hfm : mfuel ((k, v0) :: fs') ≤ fuel := by
            simp only [pfuel] at hf
            omega
          have hPM : parseMembers fuel ('"' :: (tl2 ++ '\x7d' :: rest)) =
              some ((k, v0) :: fs', rest) := by
            rw [← List.cons_append, ← hcons]
            exact ihm ((k, v0) :: fs') rest (List.cons_ne_nil _ _) hfm
          simp only [srepr, List.cons_append, List.append_assoc, List.singleton_append,
            List.nil_append]
          rw [hcons]
          simp only [List.cons_append]
          rw [parseVal.eq_def]
          simp [hPM]
    refine ⟨hvals, ?_, ?_⟩
    · intro xs rest hne hf
      cases xs with
      | nil => exact absurd rfl hne
      | cons x xs' =>
        rw [efuel] at hf
        have hpx : pfuel x ≤ fuel := by
          have h1 := le_max_left (pfuel x) (efuel xs')
          omega
        cases xs' with
        | nil =>
          have hx := ihv x (']' :: rest) hpx (by rfl)
          simp only [sreprElems]
          rw [parseElems.eq_def]
          simp [hx]
        | cons y ys =>
          have hfe' : efuel (y :: ys) ≤ fuel := by
            have h1 := le_max_right (pfuel x) (efuel (y :: ys))
            omega
          have hx := ihv x (',' :: (sreprElems (y :: ys) ++ ']' :: rest)) hpx (by rfl)
          have hrec := ihe (y :: ys) rest (List.cons_ne_nil _ _) hfe'
          simp only [sreprElems, List.cons_append, List.append_assoc]
          rw [parseElems.eq_def]
          simp only [List.cons_append] at hx
          simp [hx, hrec]
    · intro fs rest hne hf
      cases fs with
      | nil => exact absurd rfl hne
      | cons f fs' =>
        obtain ⟨k, v0⟩ := f
        rw [mfuel] at hf
        have hpv : pfuel v0 ≤ fuel := by
          have h1 := le_max_left (pfuel v0) (mfuel fs')
          omega
        cases fs' with
        | nil =>
          have hsb := parseStringBody_rt k.data (':' :: (srepr v0 ++ '\x7d' :: rest))
          have hv := ihv v0 ('\x7d' :: rest) hpv (by rfl)
          simp only [sreprMembers, List.cons_append, List.append_assoc,
            List.singleton_append]
          rw [parseMembers.eq_def]
          simp [hsb, hv]
        | cons g gs =>
          have hfm' : mfuel (g :: gs) ≤ fuel := by
            have h1 := le_max_right (pfuel v0) (mfuel (g :: gs))
            omega
          have hsb := parseStringBody_rt k.data
            (':' :: (srepr v0 ++ ',' :: (sreprMembers (g :: gs) ++ '\x7d' :: rest)))
          have hv := ihv v0 (',' :: (sreprMembers (g :: gs) ++ '\x7d' :: rest)) hpv (by rfl)
          have hrec := ihm (g :: gs) rest (List.cons_ne_nil _ _) hfm'
          simp only [sreprMembers, List.cons_append, List.append_assoc,
            List.singleton_append]
          rw [parseMembers.eq_def]
          simp only [List.cons_append] at hv
          simp [hsb, hv, hrec]

mutual

/-- The fuel needed for a value is bounded by its serialized length. -/
theorem pfuel_le_srepr (v : JVal) : pfuel v ≤ (srepr v).length + 1 := by
  cases v with
  | jnull => simp [pfuel, srepr]
  | jbool b => cases b <;> simp [pfuel, srepr]
  | jnum n => simp only [pfuel]; omega
  | jstr s => simp only [pfuel]; omega
  | jarr xs =>
    have h := efuel_le_sreprElems xs
    simp only [pfuel, srepr, List.length_append, List.length_cons, List.length_singleton]
    omega
  | jobj fs =>
    have h := mfuel_le_sreprMembers fs
    simp only [pfuel, srepr, List.length_append, List.length_cons, List.length_singleton]
    omega

/-- The fuel needed for elements is bounded by their serialized length. -/
theorem efuel_le_sreprElems (xs : List JVal) : efuel xs ≤ (sreprElems xs).length + 2 := by
  cases xs with
  | nil => simp [efuel]
  | cons x xs' =>
    have hx := pfuel_le_srepr x
    cases xs' with
    | nil =>
      have hm : max (pfuel x) (efuel ([] : List JVal)) ≤ (srepr x).length + 1 :=
        max_le hx (by simp [efuel])
      rw [efuel]
      simp only [sreprElems]
      omega
    | cons y ys =>
      have hy := efuel_le_sreprElems (y :: ys)
      have hm : max (pfuel x) (efuel (y :: ys)) ≤
          (srepr x).length + (sreprElems (y :: ys)).length + 2 :=
        max_le (by omega) (by omega)
      rw [efuel]
      simp only [sreprElems, List.length_append, List.length_cons]
      omega

/-- The fuel needed for members is bounded by their serialized length. -/
theorem mfuel_le_sreprMembers (fs : List (String × JVal)) :
    mfuel fs ≤ (sreprMembers fs).length + 2 := by
  cases fs with
  | nil => simp [mfuel]
  | cons f fs' =>
    obtain ⟨k, v0⟩ := f
    have hv := pfuel_le_srepr v0
    cases fs' with
    | nil =>
      have hm : max (pfuel v0) (mfuel ([] : List (String × JVal))) ≤ (srepr v0).length + 1 :=
        max_le hv (by simp [mfuel])
      rw [mfuel]
      simp only [sreprMembers, List.length_append, List.length_cons]
      omega
    | cons g gs =>
      have hg := mfuel_le_sreprMembers (g :: gs)
      have hm : max (pfuel v0) (mfuel (g :: gs)) ≤
          (srepr v0).length + (sreprMembers (g :: gs)).length + 2 :=
        max_le (by omega) (by omega)
      rw [mfuel]
      simp only [sreprMembers, List.length_append, List.length_cons]
      omega

end

/-- `JSON.parse` of `JSON.stringify` of a value returns the value. -/
theorem parseTop_srepr (v : JVal) : parseTop (String.mk (srepr v)) = some v := by
  have hfuel : pfuel v ≤ (srepr v).length + 1 := pfuel_le_srepr v
  have h := (parse_srepr ((srepr v).length + 1)).1 v [] hfuel (by rfl)
  rw [List.append_nil] at h
  show (match parseVal ((srepr v).length + 1) (srepr v) with
    | some (v, []) => some v
    | _ => none) = some v
  rw [h]

/-- `Map.set` followed by `Map.get` on the same key returns the set value. -/
theorem cmGet_cmSet (m : List (String × JVal)) (k : String) (v : JVal) :
    cmGet (cmSet m k v) k = some v := by
  induction m with
  | nil => simp [cmSet, cmGet]
  | cons e rest ih =>
    obtain ⟨k', v'⟩ := e
    by_cases h : k' = k
    · simp [cmSet, h, cmGet]
    · simp [cmSet, h, cmGet, ih]

/-- C9: writing a JSON-serializable value with `set`, letting the scheduled
debounced flush rewrite the cache file, and reading the key through a fresh
cache instance initialized from the same file returns a value equal to the
original, whatever the prior contents of the cache (keys are unique, as in a JS
`Map`). -/
theorem C9_cache_roundtrip (mem : List (String × JVal)) (k : String) (v : JVal)
    (hnd : (mem.map Prod.fst).Nodup) :
    cmGet (cmInitFrom (some (cmFlushFile (cmSet mem k v)))) k = some v := by
  unfold cmInitFrom cmFlushFile
  simp only [Option.getD_some]
  rw [parseTop_srepr]
  exact cmGet_cmSet mem k v

/-- Witness for C9: a cache holding one transaction history receives an
analysis record under a second key; the reloaded cache returns it unchanged. -/
theorem C9_cache_roundtrip_witness :
    cmGet (cmInitFrom (some (cmFlushFile (cmSet [("tx_history_W", JVal.jarr [JVal.jnum 1])]
        "analysis_W" (JVal.jobj [("isEligible", JVal.jbool false),
          ("reason", JVal.jstr "No transaction history found")]))))) "analysis_W" =
      some (JVal.jobj [("isEligible", JVal.jbool false),
        ("reason", JVal.jstr "No transaction history found")]) :=
  C9_cache_roundtrip [("tx_history_W", JVal.jarr [JVal.jnum 1])] "analysis_W"
    (JVal.jobj [("isEligible", JVal.jbool false),
      ("reason", JVal.jstr "No transaction history found")]) (by decide)
